import Mathlib

/-!
Verification development for the vsag core: the ODescent graph builder
(`src/impl/odescent_graph_builder.cpp`), the iterator-filter context
(`src/index/iterator_filter.cpp`), the builder's graph-file framing, and the
generic distance kernels (`src/simd/generic.cpp`).

The C++ is embedded shallowly: float arithmetic is modelled by exact
rationals (the kernels use the same left-to-right accumulation), machine
integers by `Nat`/`Int`, and the builder's block-parallel loops by their
sequential schedule (blocks executed in ascending order; the claims checked
on concrete instances involve no cross-task contention, so every schedule
yields the same state there).  PRNGs seeded from `std::random_device` /
the wall clock are modelled as explicit input streams.
-/

set_option maxHeartbeats 1000000

namespace Vsag

/-! ## Distance kernels, from `src/simd/generic.cpp`

Each kernel walks `qty` coordinates accumulating into a running register;
two equal-length lists model the two buffers (`List.zip` pairs the
coordinates). -/

/-- `generic::L2Sqr`: `res += t * t` over `t = *pVect1 - *pVect2`. -/
def L2Sqr (a b : List ℚ) : ℚ :=
  (a.zip b).foldl (fun res p => res + (p.1 - p.2) * (p.1 - p.2)) 0

/-- `generic::InnerProduct`: `res += a[i] * b[i]`. -/
def InnerProduct (a b : List ℚ) : ℚ :=
  (a.zip b).foldl (fun res p => res + p.1 * p.2) 0

/-- `generic::InnerProductDistance`: `1.0f - InnerProduct(...)`. -/
def InnerProductDistance (a b : List ℚ) : ℚ :=
  1 - InnerProduct a b

/-- `generic::INT8InnerProduct`: int8 coordinates multiplied and accumulated
(exactly, in a double accumulator). -/
def INT8InnerProduct (a b : List ℤ) : ℤ :=
  (a.zip b).foldl (fun res p => res + p.1 * p.2) 0

/-- `generic::INT8InnerProductDistance`: `-INT8InnerProduct(...)`. -/
def INT8InnerProductDistance (a b : List ℤ) : ℤ :=
  - INT8InnerProduct a b

/-! ## Iterator-filter context, from `src/index/iterator_filter.cpp` -/

/-- A `(distance, internal id)` pair as stored in the discard heap
(`std::priority_queue<std::pair<float, InnerIdType>>`: a max-heap under the
lexicographic pair order). -/
abbrev PQEntry := ℚ × Nat

/-- `operator<` of `std::pair<float, InnerIdType>` (lexicographic). -/
def pairLt (a b : PQEntry) : Bool :=
  decide (a.1 < b.1) || (decide (a.1 = b.1) && decide (a.2 < b.2))

def pqMax (a b : PQEntry) : PQEntry := if pairLt a b then b else a

/-- `top()` of the max-heap: the lexicographically greatest entry. -/
def pqTop (l : List PQEntry) : PQEntry := l.foldl pqMax (l.headD (0, 0))

/-- `pop()` of the max-heap: one occurrence of the greatest entry is removed. -/
def pqPop (l : List PQEntry) : List PQEntry := l.erase (pqTop l)

/-- `IteratorFilterContext::AddDiscardNode`: reject-or-replace insertion into
the discard heap, bounded at `ef_search * 2`. -/
def AddDiscardNode (efSearch : Nat) (l : List PQEntry) (dis : ℚ) (id : Nat) :
    List PQEntry :=
  if efSearch * 2 ≤ l.length then
    if dis < (pqTop l).1 then (dis, id) :: pqPop l else l
  else (dis, id) :: l

/-- Folding a whole call sequence of `AddDiscardNode` over the (initially
empty) discard heap of a context built with `init`. -/
def runDiscard (efSearch : Nat) (ops : List (ℚ × Nat)) : List PQEntry :=
  ops.foldl (fun l p => AddDiscardNode efSearch l p.1 p.2) []

/-- The iterator-filter context's state: discard heap, point-used bitmap
(`list_`, modelled as the list of ids whose byte is 1), visit counters
(`visited_time_`, modelled as the multiset of incremented ids), the cached
inner-distance map, and the first-use flag. -/
structure IteratorFilterContext where
  efSearch : Nat
  maxSize : Nat
  discard : List PQEntry
  usedList : List Nat
  visitedTime : List Nat
  innerDistance : List (Nat × ℚ)
  isFirstUsed : Bool
deriving DecidableEq

/-- `IteratorFilterContext::init`: rejects `ef_search = 0` or `max_size = 0`,
otherwise allocates zeroed bitmap and counters and fresh containers. -/
def IteratorFilterContext.init (maxSize efSearch : Nat) :
    Option IteratorFilterContext :=
  if efSearch = 0 || maxSize = 0 then none
  else some { efSearch := efSearch, maxSize := maxSize, discard := [],
              usedList := [], visitedTime := [], innerDistance := [],
              isFirstUsed := true }

/-- `IteratorFilterContext::SetPoint`: `list_[id] = 1`. -/
def IteratorFilterContext.SetPoint (c : IteratorFilterContext) (id : Nat) :
    IteratorFilterContext :=
  { c with usedList := id :: c.usedList }

/-- `IteratorFilterContext::CheckPoint`: returns `list_[id] == 0`. -/
def IteratorFilterContext.CheckPoint (c : IteratorFilterContext) (id : Nat) : Bool :=
  ! c.usedList.contains id

/-- The mutating operations available on an initialized context
(`AddDiscardNode`, `PopDiscard`, `SetOFFFirstUsed`, `SetPoint`, `SetVisited`,
`SetDistance`; the remaining methods are reads). -/
inductive IFCOp where
  | addDiscardNode (dis : ℚ) (id : Nat)
  | popDiscard
  | setOffFirstUsed
  | setPoint (id : Nat)
  | setVisited (id : Nat)
  | setDistance (id : Nat) (dis : ℚ)
deriving DecidableEq

def IteratorFilterContext.applyOp (c : IteratorFilterContext) :
    IFCOp → IteratorFilterContext
  | .addDiscardNode dis id => { c with discard := AddDiscardNode c.efSearch c.discard dis id }
  | .popDiscard => { c with discard := pqPop c.discard }
  | .setOffFirstUsed => { c with isFirstUsed := false }
  | .setPoint id => c.SetPoint id
  | .setVisited id => { c with visitedTime := id :: c.visitedTime }
  | .setDistance id dis => { c with innerDistance := (id, dis) :: c.innerDistance }

def IteratorFilterContext.applyOps (c : IteratorFilterContext)
    (ops : List IFCOp) : IteratorFilterContext :=
  ops.foldl IteratorFilterContext.applyOp c

/-! ## Graph-file framing, from `ODescent::SaveGraph` / `ODescent::GetGraph`

The stream is modelled as a list of bytes; `seekp(0)` followed by rewriting
the first `u64 + u32` is modelled by overwriting the first 12 bytes. -/

/-- Little-endian bytes of a 32-bit word. -/
def u32le (n : Nat) : List Nat :=
  [n % 256, n / 256 % 256, n / 256 ^ 2 % 256, n / 256 ^ 3 % 256]

/-- Little-endian bytes of a 64-bit word. -/
def u64le (n : Nat) : List Nat :=
  [n % 256, n / 256 % 256, n / 256 ^ 2 % 256, n / 256 ^ 3 % 256,
   n / 256 ^ 4 % 256, n / 256 ^ 5 % 256, n / 256 ^ 6 % 256, n / 256 ^ 7 % 256]

/-- One per-node record: `u32 gk` followed by the `gk` neighbor ids
(`out.write(&gk)` then `out.write(final_graph[i].data())`). -/
def nodeBytes (nbrs : List Nat) : List Nat :=
  u32le nbrs.length ++ (nbrs.map u32le).flatten

/-- The body loop of `SaveGraph`: accumulates the body bytes, the running
`index_size` (starting from the 24-byte header), and the running observed
maximum adjacency length (starting from 0). -/
def saveGraphLoop (g : List (List Nat)) : List Nat × Nat × Nat :=
  g.foldl
    (fun acc nbrs =>
      (acc.1 ++ nodeBytes nbrs, acc.2.1 + 4 * (nbrs.length + 1),
        if acc.2.2 < nbrs.length then nbrs.length else acc.2.2))
    ([], 24, 0)

/-- `ODescent::SaveGraph` on the adjacency-id lists produced by `GetGraph`:
writes a placeholder header (`index_size = 24`, `max_degree = 0`, entry point
`0`, `num_frozen = 0`), then the per-node records, then seeks back to offset 0
and overwrites the first 12 bytes with the final `index_size` and the
observed maximum degree. -/
def SaveGraph (g : List (List Nat)) : List Nat :=
  let res := saveGraphLoop g
  let stream := u64le 24 ++ u32le 0 ++ u32le 0 ++ u64le 0 ++ res.1
  u64le res.2.1 ++ u32le res.2.2 ++ stream.drop 12

/-! ## ODescent builder, from `src/impl/odescent_graph_builder.cpp`

The block-parallel loops are modelled by their sequential schedule (tasks in
ascending block order); `std::sort` by a stable insertion sort with
`Node::operator<` (one of the permutations an unstable sort may produce);
the iteration order of the `unordered_set` scratch sets by insertion order.
Distances are an abstract `Nat → Nat → ℚ` (`ComputePairVectors`); the
`mt19937` of `init_graph` (seeded from `std::random_device`) and the
time-seeded `LinearCongruentialGenerator` of `sample_candidates` are explicit
input streams.  `greast_neighbor_distance` starts as `FLT_MAX`, modelled as
`none` (no genuine distance compares above it). -/

structure Node where
  old : Bool
  id : Nat
  distance : ℚ
deriving DecidableEq

/-- `Node::operator<`: by distance, ties broken `old && not other.old`. -/
def nodeLt (a b : Node) : Bool :=
  if a.distance = b.distance then a.old && !b.old
  else decide (a.distance < b.distance)

/-- Insertion step of the sorting model: the new element goes before the
first strictly greater element (stable for ties). -/
def insertNode (x : Node) : List Node → List Node
  | [] => [x]
  | y :: ys => if nodeLt x y then x :: y :: ys else y :: insertNode x ys

/-- Model of `std::sort(neighbors.begin(), neighbors.end())` under
`Node::operator<`. -/
def sortNodes : List Node → List Node
  | [] => []
  | x :: xs => insertNode x (sortNodes xs)

def uniqueNodesGo (a : Node) : List Node → List Node
  | [] => [a]
  | b :: rest => if a.id = b.id then uniqueNodesGo a rest else a :: uniqueNodesGo b rest

/-- Model of `neighbors.erase(std::unique(...), end)` with `Node::operator==`
(id equality): drops every element whose id equals the previously kept
element's id. -/
def uniqueNodes : List Node → List Node
  | [] => []
  | a :: rest => uniqueNodesGo a rest

/-- sort + unique + truncate to `max_degree`: the compaction applied by the
`resize_task` of `update_neighbors` and by `add_reverse_edges`. -/
def compactNodes (md : Nat) (ns : List Node) : List Node :=
  (uniqueNodes (sortNodes ns)).take md

/-- `Linklist`: adjacency plus cached `greast_neighbor_distance`
(`none` models the initial `FLT_MAX`). -/
structure Linklist where
  neighbors : List Node
  greast_neighbor_distance : Option ℚ
deriving DecidableEq

abbrev Graph := List Linklist

def emptyLinklist : Linklist := ⟨[], none⟩

def getL (g : Graph) (i : Nat) : Linklist := g.getD i emptyLinklist

def setL (g : Graph) (i : Nat) (l : Linklist) : Graph := g.set i l

/-- `dist < greast_neighbor_distance` (with `FLT_MAX` on the right). -/
def ltGreast (d : ℚ) : Option ℚ → Bool
  | none => true
  | some gd => decide (d < gd)

/-- `std::max(greast_neighbor_distance, dist)` (absorbing on `FLT_MAX`). -/
def maxGreast : Option ℚ → ℚ → Option ℚ
  | none, _ => none
  | some gd, d => some (max gd d)

/-- Number of adjacency slots over the whole graph holding id `j` (the
quantity accumulated into `in_edges_count`). -/
def slotCount (g : Graph) (j : Nat) : Nat :=
  (g.map fun l => l.neighbors.countP fun nb => decide (nb.id = j)).sum

/-- `unordered_set::insert`, iterated in insertion order. -/
def insertIdSet (v : Nat) (s : List Nat) : List Nat :=
  if v ∈ s then s else s ++ [v]

/-- The rejection loop `while (ids_set.find(id) != ids_set.end()) id =
k_generate(rng);`: the first stream value (mod `n`) outside the set wins;
`fuel` bounds the search (the C++ loops unboundedly). -/
def drawFresh (stream : Nat → Nat) (n : Nat) (ids : List Nat) :
    Nat → Nat → Option (Nat × Nat)
  | _, 0 => none
  | cursor, fuel + 1 =>
      let v := stream cursor % n
      if v ∈ ids then drawFresh stream n ids (cursor + 1) fuel
      else some (v, cursor + 1)

/-- The inner `for (j = 0; j < max_neighbors; ++j)` of `init_graph` for node
`i`: `rem` iterations remain, `j` is the current index. -/
def initNodeGo (dist : Nat → Nat → ℚ) (stream : Nat → Nat) (n md i fuel : Nat) :
    Nat → Nat → List Node → List Nat → Option ℚ → Nat →
      Option (List Node × Option ℚ × Nat)
  | 0, _, acc, _, gnd, cursor => some (acc, gnd, cursor)
  | rem + 1, j, acc, ids, gnd, cursor =>
      if n - 1 < md then
        let id := (i + j + 1) % n
        let d := dist i id
        initNodeGo dist stream n md i fuel rem (j + 1)
          (acc ++ [⟨false, id, d⟩]) (insertIdSet id ids) (maxGreast gnd d) cursor
      else
        match drawFresh stream n ids cursor fuel with
        | none => none
        | some (id, cursor2) =>
            let d := dist i id
            initNodeGo dist stream n md i fuel rem (j + 1)
              (acc ++ [⟨false, id, d⟩]) (insertIdSet id ids) (maxGreast gnd d) cursor2

/-- `ODescent::init_graph`, sequential schedule, one RNG stream (a single
task; `block_size` is 10000, so any `data_num` up to that runs as one task
per phase). -/
def init_graph (dist : Nat → Nat → ℚ) (stream : Nat → Nat) (n md fuel : Nat) :
    Option Graph :=
  let maxNb := min (n - 1) md
  (((List.range n).foldl
    (fun st i =>
      st.bind fun gc =>
        (initNodeGo dist stream n md i fuel maxNb 0 [] [i] none gc.2).map
          fun r => (gc.1 ++ [⟨r.1, r.2.1⟩], r.2.2))
    (some ([], 0))) : Option (Graph × Nat)).map Prod.fst

/-- State of one `sample_candidates` call: the graph (old flags get set), the
`old_neighbors` / `new_neighbors` scratch sets, and the LCG cursor. -/
abbrev SampleState := Graph × List (List Nat) × List (List Nat) × Nat

def setSetAt (ss : List (List Nat)) (i v : Nat) : List (List Nat) :=
  ss.set i (insertIdSet v (ss.getD i []))

/-- Body of `sample_candidates` for edge slot `j` of node `i`. -/
def sampleEdge (rate : ℚ) (sStream : Nat → ℚ) (i : Nat) (st : SampleState)
    (j : Nat) : SampleState :=
  let g := st.1
  let olds := st.2.1
  let news := st.2.2.1
  let cursor := st.2.2.2
  let v := sStream cursor
  if v < rate then
    match (getL g i).neighbors.get? j with
    | none => (g, olds, news, cursor + 1)
    | some nb =>
        if nb.old then
          (g, setSetAt (setSetAt olds i nb.id) nb.id i, news, cursor + 1)
        else
          let ll := getL g i
          let g2 := setL g i { ll with neighbors := (ll.neighbors.set j { nb with old := true }) }
          (g2, olds, setSetAt (setSetAt news i nb.id) nb.id i, cursor + 1)
  else (g, olds, news, cursor + 1)

/-- `ODescent::sample_candidates`, sequential schedule. -/
def sample_candidates (rate : ℚ) (sStream : Nat → ℚ) (n : Nat)
    (g : Graph) (olds news : List (List Nat)) : SampleState :=
  (List.range n).foldl
    (fun st i =>
      (List.range (getL st.1 i).neighbors.length).foldl
        (fun st2 j => sampleEdge rate sStream i st2 j) st)
    (g, olds, news, 0)

/-- `graph[tgt].neighbors.emplace_back(srcId, d)` guarded by
`d < graph[tgt].greast_neighbor_distance`. -/
def maybeAppend (g : Graph) (tgt srcId : Nat) (d : ℚ) : Graph :=
  if ltGreast d (getL g tgt).greast_neighbor_distance then
    let ll := getL g tgt
    setL g tgt { ll with neighbors := ll.neighbors ++ [⟨false, srcId, d⟩] }
  else g

/-- The candidate double loop of `update_neighbors` for one node `i`. -/
def updateNode (dist : Nat → Nat → ℚ) (g : Graph) (oldSet newSet : List Nat) :
    Graph :=
  ((newSet.foldl
    (fun (st : Graph × List Nat) nodeId =>
      let g1 := st.2.foldl
        (fun gAcc neighborId =>
          let d := dist nodeId neighborId
          maybeAppend (maybeAppend gAcc nodeId neighborId d) neighborId nodeId d)
        st.1
      let cands := st.2 ++ [nodeId]
      let g2 := oldSet.foldl
        (fun gAcc neighborId =>
          if neighborId = nodeId then gAcc
          else
            let d := dist neighborId nodeId
            maybeAppend (maybeAppend gAcc nodeId neighborId d) neighborId nodeId d)
        g1
      (g2, cands))
    (g, [])) : Graph × List Nat).1

/-- The `resize_task` of `update_neighbors`: sort, dedupe, truncate, refresh
`greast_neighbor_distance` from the (nonempty) truncated list's back. -/
def resizeNode (md : Nat) (ll : Linklist) : Linklist :=
  let ns := compactNodes md ll.neighbors
  { neighbors := ns,
    greast_neighbor_distance :=
      match ns.getLast? with
      | some nb => some nb.distance
      | none => ll.greast_neighbor_distance }

/-- `ODescent::update_neighbors`, sequential schedule; returns the graph and
the cleared scratch sets. -/
def update_neighbors (dist : Nat → Nat → ℚ) (n md : Nat) (g : Graph)
    (olds news : List (List Nat)) : Graph × List (List Nat) × List (List Nat) :=
  let g1 := (List.range n).foldl
    (fun gAcc i => updateNode dist gAcc (olds.getD i []) (news.getD i [])) g
  let g2 := (List.range n).foldl
    (fun gAcc i => setL gAcc i (resizeNode md (getL gAcc i))) g1
  (g2, List.replicate n [], List.replicate n [])

def bumpF (f : Nat → Nat) (k : Nat) : Nat → Nat :=
  fun j => if j = k then f k + 1 else f j

def decF (f : Nat → Nat) (k : Nat) : Nat → Nat :=
  fun j => if j = k then f k - 1 else f j

/-- The `while (in_edges_count[i] < min_in_degree_ && need_replace_loc <
max_degree_)` loop of `repair_no_in_edge` for node `i`; `fuel ≥ md` covers
every iteration (the loop index grows by one per round).  The out-of-bounds
reads the C++ could perform on short adjacency lists (never on the states the
builder reaches) advance the loop without mutating. -/
def repairLoop (minDeg md i : Nat) :
    Nat → Nat → Graph × (Nat → Nat) × (Nat → Nat) → Graph × (Nat → Nat) × (Nat → Nat)
  | _, 0, st => st
  | loc, fuel + 1, (g, cnt, rpos) =>
      if cnt i < minDeg ∧ loc < md then
        match (getL g i).neighbors.get? loc with
        | none => repairLoop minDeg md i (loc + 1) fuel (g, cnt, rpos)
        | some link =>
            if 0 < rpos link.id ∧
                ((getL g link.id).neighbors.any fun nb => decide (nb.id = i)) = false then
              match (getL g link.id).neighbors.get? (rpos link.id) with
              | none => repairLoop minDeg md i (loc + 1) fuel (g, cnt, decF rpos link.id)
              | some replaceNode =>
                  if minDeg < cnt replaceNode.id then
                    repairLoop minDeg md i (loc + 1) fuel
                      (setL g link.id
                        ⟨(getL g link.id).neighbors.set (rpos link.id)
                            ⟨replaceNode.old, i, link.distance⟩,
                          (getL g link.id).greast_neighbor_distance⟩,
                        bumpF (decF cnt replaceNode.id) i, decF rpos link.id)
                  else repairLoop minDeg md i (loc + 1) fuel (g, cnt, decF rpos link.id)
            else repairLoop minDeg md i (loc + 1) fuel (g, cnt, rpos)
      else (g, cnt, rpos)

/-- `ODescent::repair_no_in_edge`: count in-edges, then walk every node,
donating replacement slots toward nodes under the in-degree floor. -/
def repair_no_in_edge (minDeg md n : Nat) (g : Graph) : Graph :=
  ((List.range n).foldl
    (fun st i => repairLoop minDeg md i 0 md st)
    (g, fun j => slotCount g j, fun _ => min (n - 1) md - 1)).1

/-- The retain loop of `prune_graph` over one node's sorted deduped
neighbors: a neighbor is dropped (and its in-edge count decremented once)
exactly when its count is above the floor and some already-retained candidate
sits within `alpha` of it. -/
def pruneSel (dist : Nat → Nat → ℚ) (alpha : ℚ) (minDeg : Nat) :
    List Node → List Node → (Nat → Nat) → List Node × (Nat → Nat)
  | [], cand, cnt => (cand, cnt)
  | nb :: rest, cand, cnt =>
      if minDeg < cnt nb.id ∧
          (cand.any fun c => decide (dist nb.id c.id * alpha < nb.distance)) = true then
        pruneSel dist alpha minDeg rest cand (decF cnt nb.id)
      else pruneSel dist alpha minDeg rest (cand ++ [nb]) cnt

/-- Modelled from the claim's words (C5), to be compared with `pruneSel`:
retain `n` iff its current in-degree is at (or under) the floor, or every
already-retained candidate `c` satisfies `alpha * dist(n, c) ≥ dist(n,
origin)`. -/
def pruneSelSpec (dist : Nat → Nat → ℚ) (alpha : ℚ) (minDeg : Nat) :
    List Node → List Node → (Nat → Nat) → List Node × (Nat → Nat)
  | [], cand, cnt => (cand, cnt)
  | nb :: rest, cand, cnt =>
      if cnt nb.id ≤ minDeg ∨ ∀ c ∈ cand, nb.distance ≤ alpha * dist nb.id c.id then
        pruneSelSpec dist alpha minDeg rest (cand ++ [nb]) cnt
      else pruneSelSpec dist alpha minDeg rest cand (decF cnt nb.id)

/-- The per-node body of `prune_graph`: sort, dedupe, select, truncate to
`max_degree` (the cached greatest distance is not refreshed here). -/
def pruneNode (dist : Nat → Nat → ℚ) (alpha : ℚ) (minDeg md : Nat)
    (ns : List Node) (cnt : Nat → Nat) : List Node × (Nat → Nat) :=
  let l := uniqueNodes (sortNodes ns)
  let r := pruneSel dist alpha minDeg l [] cnt
  (r.1.take md, r.2)

/-- `ODescent::prune_graph`, sequential schedule. -/
def prune_graph (dist : Nat → Nat → ℚ) (alpha : ℚ) (minDeg md n : Nat)
    (g : Graph) : Graph :=
  ((List.range n).foldl
    (fun (st : Graph × (Nat → Nat)) i =>
      let r := pruneNode dist alpha minDeg md (getL st.1 i).neighbors st.2
      (setL st.1 i { getL st.1 i with neighbors := r.1 }, r.2))
    (g, fun j => slotCount g j)).1

/-- `ODescent::add_reverse_edges`: build the reverse adjacency, append it,
then sort + dedupe + truncate per node. -/
def add_reverse_edges (md n : Nat) (g : Graph) : Graph :=
  let rev := (List.range n).foldl
    (fun racc i =>
      ((getL g i).neighbors).foldl
        (fun racc2 nb => racc2.set nb.id (racc2.getD nb.id [] ++ [⟨false, i, nb.distance⟩]))
        racc)
    (List.replicate n ([] : List Node))
  (List.range n).foldl
    (fun g2 i =>
      let ll := getL g2 i
      setL g2 i { ll with neighbors := compactNodes md (ll.neighbors ++ rev.getD i []) })
    g

/-- The constructor parameters of `ODescent` together with the data the
flatten interface and the random sources supply during `Build`. -/
structure ODescentParams where
  max_degree : Nat
  alpha : ℚ
  turn : Nat
  sample_rate : ℚ
  pruning : Bool
  data_num : Nat
  dist : Nat → Nat → ℚ
  initStream : Nat → Nat
  sampleStream : Nat → Nat → ℚ
  fuel : Nat

/-- The mutable members of an `ODescent` object that `Build` touches. -/
structure ODescentState where
  is_build : Bool
  min_in_degree : Nat
  data_num : Nat
  graph : Graph
deriving DecidableEq

def freshODescent : ODescentState :=
  { is_build := false, min_in_degree := 1, data_num := 0, graph := [] }

/-- The phase pipeline of `Build` after the `is_build_` guard: init, `turn`
rounds of sample / update / repair, then optional prune + reverse edges. -/
def buildPhases (p : ODescentParams) (minDeg : Nat) : Option Graph :=
  (init_graph p.dist p.initStream p.data_num p.max_degree p.fuel).map fun g0 =>
    let rounds := (List.range p.turn).foldl
      (fun (st : Graph × List (List Nat) × List (List Nat)) t =>
        let s := sample_candidates p.sample_rate (p.sampleStream t) p.data_num
          st.1 st.2.1 st.2.2
        let u := update_neighbors p.dist p.data_num p.max_degree s.1 s.2.1 s.2.2.1
        (repair_no_in_edge minDeg p.max_degree p.data_num u.1, u.2.1, u.2.2))
      (g0, List.replicate p.data_num [], List.replicate p.data_num [])
    if p.pruning then
      add_reverse_edges p.max_degree p.data_num
        (prune_graph p.dist p.alpha minDeg p.max_degree p.data_num rounds.1)
    else rounds.1

/-- `ODescent::Build`: returns `false` at once when `is_build_` is already
set, otherwise runs the pipeline and returns `true`. -/
def Build (p : ODescentParams) (s : ODescentState) : Option (Bool × ODescentState) :=
  if s.is_build then some (false, s)
  else
    let minDeg := min s.min_in_degree (p.data_num - 1)
    (buildPhases p minDeg).map fun g =>
      (true, { is_build := true, min_in_degree := minDeg,
               data_num := p.data_num, graph := g })

/-- `ODescent::GetGraph`: the adjacency ids per node. -/
def GetGraph (g : Graph) : List (List Nat) :=
  g.map fun l => l.neighbors.map fun nb => nb.id

/-! ### Concrete instances used by counterexamples and witnesses -/

/-- Three points with all pairwise distances 1 (e.g. duplicate-free but
equidistant vectors). -/
def distOne : Nat → Nat → ℚ := fun _ _ => 1

/-- A sample stream that never selects an edge at `sample_rate = 1/2`. -/
def sampleNever : Nat → Nat → ℚ := fun _ _ => 1

/-- C1 counterexample instance: `N = 3`, `max_degree = 1`, one round, no
pruning; the init stream makes node 0 pick 1 and nodes 1, 2 pick 0. -/
def pC1 : ODescentParams :=
  { max_degree := 1, alpha := 1, turn := 1, sample_rate := mkRat 1 2, pruning := false,
    data_num := 3, dist := distOne, initStream := fun k => [1, 0, 0].getD k 0,
    sampleStream := sampleNever, fuel := 10 }

/-- C6 counterexample instance: `N = 3`, `max_degree = 3`, one round, with
pruning; all distances tie, nothing is sampled. -/
def pC6 : ODescentParams :=
  { max_degree := 3, alpha := 1, turn := 1, sample_rate := mkRat 1 2, pruning := true,
    data_num := 3, dist := distOne, initStream := fun _ => 0,
    sampleStream := sampleNever, fuel := 10 }

/-- Init stream for the C2 counterexample (`N = 3`, `max_degree = 2`: the
boundary `N - 1 = max_degree` where the code still uses the PRNG branch). -/
def streamC2 : Nat → Nat := fun k => [2, 1, 0, 2, 0, 1].getD k 0

/-- `Node::operator<` viewed as the lexicographic order on (distance, flag
rank): `old = true` ranks 0, `old = false` ranks 1. -/
def nodeKey (a : Node) : PQEntry := (a.distance, if a.old then 0 else 1)

/-- The graph `init_graph` produces on three points at `max_degree = 5`
(cyclic branch), all distances 1. -/
def gCyc : Graph :=
  [⟨[⟨false, 1, 1⟩, ⟨false, 2, 1⟩], none⟩,
   ⟨[⟨false, 2, 1⟩, ⟨false, 0, 1⟩], none⟩,
   ⟨[⟨false, 0, 1⟩, ⟨false, 1, 1⟩], none⟩]

/-- The `ODescent` state after `Build pC1 freshODescent` returns. -/
def sC1 : ODescentState :=
  { is_build := true, min_in_degree := 1, data_num := 3,
    graph := [⟨[⟨false, 1, 1⟩], some 1⟩, ⟨[⟨false, 0, 1⟩], some 1⟩,
              ⟨[⟨false, 0, 1⟩], some 1⟩] }

/-- The invariant carried through `repair_no_in_edge`: the counter array
tracks the true slot counts, and no count ever falls below
`min (initial count) min_in_degree`. -/
def RepairInv (c0 : Nat → Nat) (minDeg : Nat)
    (st : Graph × (Nat → Nat) × (Nat → Nat)) : Prop :=
  (∀ j, st.2.1 j = slotCount st.1 j) ∧ (∀ j, min (c0 j) minDeg ≤ st.2.1 j)

theorem foldl_add_map_sum {α M : Type} [AddCommMonoid M] (f : α → M) (l : List α) (init : M) :
    l.foldl (fun r x => r + f x) init = init + (l.map f).sum := by
  induction l generalizing init with
  | nil => simp
  | cons x xs ih => simp [ih, add_assoc]

theorem pairLt_true_iff (a b : PQEntry) :
    pairLt a b = true ↔ (a.1 < b.1 ∨ (a.1 = b.1 ∧ a.2 < b.2)) := by
  simp [pairLt]

theorem pairLt_false_iff (a b : PQEntry) :
    pairLt a b = false ↔ (b.1 < a.1 ∨ (b.1 = a.1 ∧ b.2 ≤ a.2)) := by
  simp only [pairLt, Bool.or_eq_false_iff, Bool.and_eq_false_iff,
    decide_eq_false_iff_not]
  constructor
  · rintro ⟨h1, h2⟩
    rcases lt_trichotomy a.1 b.1 with h | h | h
    · exact absurd h h1
    · rcases h2 with h2 | h2
      · exact absurd h h2
      · exact Or.inr ⟨h.symm, not_lt.mp h2⟩
    · exact Or.inl h
  · rintro (h | ⟨h1, h2⟩)
    · refine ⟨fun hc => absurd (hc.trans h) (lt_irrefl _), Or.inl ?_⟩
      intro hc
      rw [hc] at h
      exact lt_irrefl _ h
    · refine ⟨fun hc => ?_, Or.inr (not_lt.mpr h2)⟩
      rw [h1] at hc
      exact lt_irrefl _ hc

theorem pairLt_asymm (a b : PQEntry) (h : pairLt a b = true) : pairLt b a = false := by
  rw [pairLt_true_iff] at h
  rw [pairLt_false_iff]
  rcases h with h | ⟨h1, h2⟩
  · exact Or.inl h
  · exact Or.inr ⟨h1, h2.le⟩

theorem pairLt_false_trans (a b c : PQEntry) (hab : pairLt a b = false)
    (hbc : pairLt b c = false) : pairLt a c = false := by
  rw [pairLt_false_iff] at hab hbc
  rw [pairLt_false_iff]
  rcases hab with h1 | ⟨h1, h2⟩ <;> rcases hbc with h3 | ⟨h3, h4⟩
  · exact Or.inl (h3.trans h1)
  · exact Or.inl (h3 ▸ h1)
  · refine Or.inl ?_
    rw [← h1]
    exact h3
  · exact Or.inr ⟨h3.trans h1, h4.trans h2⟩

theorem pairLt_irrefl (a : PQEntry) : pairLt a a = false := by
  rw [pairLt_false_iff]
  exact Or.inr ⟨rfl, le_refl _⟩

theorem pqMax_cases (a b : PQEntry) : pqMax a b = a ∨ pqMax a b = b := by
  unfold pqMax
  by_cases h : pairLt a b = true
  · rw [if_pos h]
    exact Or.inr rfl
  · rw [if_neg h]
    exact Or.inl rfl

theorem pqMax_ge_left (a b : PQEntry) : pairLt (pqMax a b) a = false := by
  unfold pqMax
  by_cases h : pairLt a b = true
  · rw [if_pos h]
    exact pairLt_asymm a b h
  · rw [if_neg h]
    exact pairLt_irrefl a

theorem pqMax_ge_right (a b : PQEntry) : pairLt (pqMax a b) b = false := by
  unfold pqMax
  by_cases h : pairLt a b = true
  · rw [if_pos h]
    exact pairLt_irrefl b
  · rw [if_neg h]
    exact Bool.not_eq_true _ ▸ (Bool.eq_false_iff.mpr h)

theorem foldl_pqMax_ge (l : List PQEntry) (a : PQEntry) :
    pairLt (l.foldl pqMax a) a = false ∧
      ∀ x ∈ l, pairLt (l.foldl pqMax a) x = false := by
  induction l generalizing a with
  | nil =>
    exact ⟨pairLt_irrefl a, by simp⟩
  | cons b bs ih =>
    simp only [List.foldl_cons]
    obtain ⟨h1, h2⟩ := ih (pqMax a b)
    refine ⟨pairLt_false_trans _ _ _ h1 (pqMax_ge_left a b), ?_⟩
    intro x hx
    rcases List.mem_cons.mp hx with rfl | hx
    · exact pairLt_false_trans _ _ _ h1 (pqMax_ge_right a x)
    · exact h2 x hx

theorem foldl_pqMax_mem (l : List PQEntry) (a : PQEntry) :
    l.foldl pqMax a = a ∨ l.foldl pqMax a ∈ l := by
  induction l generalizing a with
  | nil => exact Or.inl rfl
  | cons b bs ih =>
    simp only [List.foldl_cons]
    rcases ih (pqMax a b) with h | h
    · rw [h]
      rcases pqMax_cases a b with h2 | h2
      · exact Or.inl h2
      · refine Or.inr ?_
        rw [h2]
        exact List.mem_cons_self b bs
    · exact Or.inr (List.mem_cons_of_mem b h)

theorem pqTop_mem (l : List PQEntry) (h : l ≠ []) : pqTop l ∈ l := by
  unfold pqTop
  rcases foldl_pqMax_mem l (l.headD (0, 0)) with h1 | h1
  · rw [h1]
    cases l with
    | nil => exact absurd rfl h
    | cons x xs => exact List.mem_cons_self x xs
  · exact h1

theorem le_pqTop (l : List PQEntry) (x : PQEntry) (hx : x ∈ l) :
    x.1 ≤ (pqTop l).1 := by
  have h := (foldl_pqMax_ge l (l.headD (0, 0))).2 x hx
  unfold pqTop
  simp only [pairLt, Bool.or_eq_false_iff, Bool.and_eq_false_iff,
    decide_eq_false_iff_not] at h
  exact not_lt.mp h.1

theorem AddDiscardNode_length_le (efSearch : Nat) (hef : 1 ≤ efSearch)
    (l : List PQEntry) (dis : ℚ) (id : Nat) (hl : l.length ≤ 2 * efSearch) :
    (AddDiscardNode efSearch l dis id).length ≤ 2 * efSearch := by
  unfold AddDiscardNode
  by_cases hfull : efSearch * 2 ≤ l.length
  · simp only [hfull, if_true]
    by_cases hrepl : dis < (pqTop l).1
    · simp only [hrepl, if_true]
      have hne : l ≠ [] := by
        intro he
        rw [he] at hfull
        simp at hfull
        omega
      have hmem := pqTop_mem l hne
      unfold pqPop
      rw [List.length_cons, List.length_erase_of_mem hmem]
      have : 1 ≤ l.length := List.length_pos.mpr hne
      omega
    · simp only [hrepl, if_false]
      exact hl
  · simp only [hfull, if_false, List.length_cons]
    omega

theorem runDiscard_length_le (efSearch : Nat) (hef : 1 ≤ efSearch)
    (ops : List (ℚ × Nat)) : (runDiscard efSearch ops).length ≤ 2 * efSearch := by
  unfold runDiscard
  have h : ∀ (l : List PQEntry), l.length ≤ 2 * efSearch →
      (ops.foldl (fun l p => AddDiscardNode efSearch l p.1 p.2) l).length ≤ 2 * efSearch := by
    induction ops with
    | nil => intro l hl; exact hl
    | cons p ps ih =>
      intro l hl
      exact ih _ (AddDiscardNode_length_le efSearch hef l p.1 p.2 hl)
  exact h [] (by simp)

/-- C3: the discard heap of a context created with `ef_search = e ≥ 1` never
holds more than `2*e` entries across any `AddDiscardNode` call sequence; at
capacity, the heap's top is an entry of greatest distance among the contents,
and an arriving entry replaces it exactly when its distance is strictly
smaller (otherwise the new entry is dropped and the heap is unchanged). -/
theorem addDiscardNode_capacity_and_eviction (efSearch : Nat) (ops : List (ℚ × Nat))
    (l : List PQEntry) (dis : ℚ) (id : Nat)
    (hef : 1 ≤ efSearch) (hlen : 2 * efSearch ≤ l.length) :
    (runDiscard efSearch ops).length ≤ 2 * efSearch ∧
    pqTop l ∈ l ∧
    (∀ x ∈ l, x.1 ≤ (pqTop l).1) ∧
    (dis < (pqTop l).1 →
      AddDiscardNode efSearch l dis id = (dis, id) :: l.erase (pqTop l)) ∧
    ((pqTop l).1 ≤ dis → AddDiscardNode efSearch l dis id = l) := by
  have hne : l ≠ [] := by
    intro he
    rw [he] at hlen
    simp at hlen
    omega
  refine ⟨runDiscard_length_le efSearch hef ops, pqTop_mem l hne,
    fun x hx => le_pqTop l x hx, ?_, ?_⟩
  · intro hrepl
    unfold AddDiscardNode
    have hfull : efSearch * 2 ≤ l.length := by omega
    simp only [hfull, if_true, hrepl, if_true]
    rfl
  · intro hge
    unfold AddDiscardNode
    have hfull : efSearch * 2 ≤ l.length := by omega
    simp only [hfull, if_true, not_lt.mpr hge, if_false]

/-- Witness for `addDiscardNode_capacity_and_eviction` at `ef_search = 1`,
heap `[(2,5),(3,7)]`, new entry `(1,9)`. -/
theorem addDiscardNode_capacity_and_eviction_witness :
    (runDiscard 1 [(2, 5), (3, 7), (1, 9)]).length ≤ 2 * 1 ∧
    pqTop [((2 : ℚ), 5), (3, 7)] ∈ [((2 : ℚ), 5), (3, 7)] ∧
    (∀ x ∈ [((2 : ℚ), 5), (3, 7)], x.1 ≤ (pqTop [((2 : ℚ), 5), (3, 7)]).1) ∧
    ((1 : ℚ) < (pqTop [((2 : ℚ), 5), (3, 7)]).1 →
      AddDiscardNode 1 [((2 : ℚ), 5), (3, 7)] 1 9 =
        ((1 : ℚ), 9) :: [((2 : ℚ), 5), (3, 7)].erase (pqTop [((2 : ℚ), 5), (3, 7)])) ∧
    ((pqTop [((2 : ℚ), 5), (3, 7)]).1 ≤ (1 : ℚ) →
      AddDiscardNode 1 [((2 : ℚ), 5), (3, 7)] 1 9 = [((2 : ℚ), 5), (3, 7)]) :=
  addDiscardNode_capacity_and_eviction 1 [(2, 5), (3, 7), (1, 9)]
    [((2 : ℚ), 5), (3, 7)] 1 9 (by decide) (by decide)

theorem applyOp_mono (c : IteratorFilterContext) (op : IFCOp) (id : Nat)
    (h : c.usedList.contains id = true) :
    ((c.applyOp op).usedList.contains id) = true := by
  cases op with
  | addDiscardNode dis i => exact h
  | popDiscard => exact h
  | setOffFirstUsed => exact h
  | setPoint i =>
    simp only [IteratorFilterContext.applyOp, IteratorFilterContext.SetPoint,
      List.contains_cons]
    rw [h]
    simp
  | setVisited i => exact h
  | setDistance i dis => exact h

theorem applyOps_mono (c : IteratorFilterContext) (ops : List IFCOp) (id : Nat)
    (h : c.usedList.contains id = true) :
    ((c.applyOps ops).usedList.contains id) = true := by
  induction ops generalizing c with
  | nil => exact h
  | cons op rest ih =>
    exact ih (c.applyOp op) (applyOp_mono c op id h)

/-- C4: once `SetPoint(id)` has been called on a context, every subsequent
`CheckPoint(id)` after any sequence of further operations returns `false`; no
operation other than a fresh `init` clears the bit, and a freshly initialized
context has every bit clear. -/
theorem setPoint_persistent (c c0 : IteratorFilterContext) (id : Nat)
    (ops : List IFCOp) (maxSize efSearch : Nat)
    (hinit : IteratorFilterContext.init maxSize efSearch = some c0) :
    ((c.SetPoint id).applyOps ops).CheckPoint id = false ∧
    c0.CheckPoint id = true := by
  constructor
  · have h : (c.SetPoint id).usedList.contains id = true := by
      simp [IteratorFilterContext.SetPoint]
    have h2 := applyOps_mono (c.SetPoint id) ops id h
    simp only [IteratorFilterContext.CheckPoint, h2, Bool.not_true]
  · unfold IteratorFilterContext.init at hinit
    by_cases he : (efSearch = 0 || maxSize = 0) = true
    · rw [if_pos he] at hinit
      exact absurd hinit (by simp)
    · rw [if_neg he] at hinit
      have : c0.usedList = [] := by
        cases hinit
        rfl
      simp [IteratorFilterContext.CheckPoint, this]

/-- Witness for `setPoint_persistent` on a concrete context, id 3, and an
operation sequence exercising every mutating operation. -/
theorem setPoint_persistent_witness :
    ((({ efSearch := 2, maxSize := 4, discard := [], usedList := [],
         visitedTime := [], innerDistance := [],
         isFirstUsed := true : IteratorFilterContext }).SetPoint 3).applyOps
        [.addDiscardNode 1 0, .popDiscard, .setOffFirstUsed, .setPoint 1,
         .setVisited 3, .setDistance 3 5]).CheckPoint 3 = false ∧
    ({ efSearch := 2, maxSize := 4, discard := [], usedList := [],
       visitedTime := [], innerDistance := [],
       isFirstUsed := true : IteratorFilterContext }).CheckPoint 3 = true :=
  setPoint_persistent _ _ 3 _ 4 2 rfl

theorem saveGraphLoop_spec (g : List (List Nat)) (acc : List Nat) (sz md : Nat) :
    g.foldl
      (fun acc nbrs =>
        (acc.1 ++ nodeBytes nbrs, acc.2.1 + 4 * (nbrs.length + 1),
          if acc.2.2 < nbrs.length then nbrs.length else acc.2.2))
      (acc, sz, md) =
    (acc ++ (g.map nodeBytes).flatten,
      sz + (g.map fun nbrs => 4 * (nbrs.length + 1)).sum,
      g.foldl (fun m nbrs => max m nbrs.length) md) := by
  induction g generalizing acc sz md with
  | nil => simp
  | cons nbrs rest ih =>
    simp only [List.foldl_cons, List.map_cons, List.flatten_cons, List.sum_cons, ih]
    refine congrArg₂ _ (by simp) (congrArg₂ _ (by ring) (congrArg₂ _ ?_ rfl))
    by_cases h : md < nbrs.length
    · rw [if_pos h, max_eq_right h.le]
    · rw [if_neg h, max_eq_left (not_lt.mp h)]

theorem nodeBytes_length (nbrs : List Nat) :
    (nodeBytes nbrs).length = 4 * (nbrs.length + 1) := by
  have h : ((nbrs.map u32le).flatten).length = 4 * nbrs.length := by
    induction nbrs with
    | nil => simp
    | cons x xs ih =>
      simp only [List.map_cons, List.flatten_cons, List.length_append, ih, u32le,
        List.length_cons, List.length_nil]
      ring
  simp only [nodeBytes, List.length_append, h, u32le, List.length_cons, List.length_nil]
  ring

theorem nodeBytes_flatten_length (g : List (List Nat)) :
    ((g.map nodeBytes).flatten).length =
      (g.map fun nbrs => 4 * (nbrs.length + 1)).sum := by
  induction g with
  | nil => simp
  | cons x xs ih =>
    simp only [List.map_cons, List.flatten_cons, List.length_append, ih,
      nodeBytes_length, List.sum_cons]

/-- C7: `SaveGraph` emits `u64 index_size`, `u32 max_degree_observed`,
`u32 entry_point = 0`, `u64 num_frozen = 0`, then per node a `u32` adjacency
length followed by that many `u32` neighbor ids; the `index_size` placeholder
(24) is overwritten with the final total byte count (which equals the stream's
length, header included) and the `max_degree` placeholder with the maximum
adjacency length over all nodes. -/
theorem saveGraph_layout (g : List (List Nat)) :
    SaveGraph g =
      u64le (24 + (g.map fun nbrs => 4 * (nbrs.length + 1)).sum) ++
        u32le (g.foldl (fun m nbrs => max m nbrs.length) 0) ++
        u32le 0 ++ u64le 0 ++ (g.map nodeBytes).flatten ∧
    (SaveGraph g).length = 24 + (g.map fun nbrs => 4 * (nbrs.length + 1)).sum := by
  have hloop : saveGraphLoop g =
      ((g.map nodeBytes).flatten,
        24 + (g.map fun nbrs => 4 * (nbrs.length + 1)).sum,
        g.foldl (fun m nbrs => max m nbrs.length) 0) := by
    unfold saveGraphLoop
    rw [saveGraphLoop_spec]
    simp
  have hlayout : SaveGraph g =
      u64le (24 + (g.map fun nbrs => 4 * (nbrs.length + 1)).sum) ++
        u32le (g.foldl (fun m nbrs => max m nbrs.length) 0) ++
        u32le 0 ++ u64le 0 ++ (g.map nodeBytes).flatten := by
    unfold SaveGraph
    rw [hloop]
    simp only [List.append_assoc]
    refine congrArg _ (congrArg _ ?_)
    have h12 : (u64le 24 ++ (u32le 0 ++ (u32le 0 ++ (u64le 0 ++ (g.map nodeBytes).flatten)))) =
        (u64le 24 ++ u32le 0) ++ (u32le 0 ++ (u64le 0 ++ (g.map nodeBytes).flatten)) := by
      simp [List.append_assoc]
    rw [h12]
    have hlen : (u64le 24 ++ u32le 0).length = 12 := by decide
    rw [← hlen, List.drop_left]
  refine ⟨hlayout, ?_⟩
  rw [hlayout]
  simp only [List.length_append, nodeBytes_flatten_length, u64le, u32le,
    List.length_cons, List.length_nil]

/-- C9 (amended): over exact rationals, `L2Sqr` returns the sum of squared
coordinate differences and the float32 `InnerProductDistance` returns one
minus the dot product, but the int8 kernel `INT8InnerProductDistance` returns
the negated dot product, not one minus it. -/
theorem distance_kernel_values (a b : List ℚ) (c d : List ℤ) :
    L2Sqr a b = ((a.zip b).map fun p => (p.1 - p.2) * (p.1 - p.2)).sum ∧
    InnerProductDistance a b = 1 - ((a.zip b).map fun p => p.1 * p.2).sum ∧
    INT8InnerProductDistance c d = - ((c.zip d).map fun p => p.1 * p.2).sum := by
  refine ⟨?_, ?_, ?_⟩
  · unfold L2Sqr
    rw [foldl_add_map_sum (fun p : ℚ × ℚ => (p.1 - p.2) * (p.1 - p.2))]
    simp
  · unfold InnerProductDistance InnerProduct
    rw [foldl_add_map_sum (fun p : ℚ × ℚ => p.1 * p.2)]
    simp
  · unfold INT8InnerProductDistance INT8InnerProduct
    rw [foldl_add_map_sum (fun p : ℤ × ℤ => p.1 * p.2)]
    simp

/-- C9 counterexample: on the one-dimensional int8 vectors `(1)` and `(1)`
the int8 inner-product kernel returns `-1`, not `1 - ⟨a,b⟩ = 0`: the claimed
`1 - dot` convention fails for the int8 kernel. -/
theorem int8_distance_convention_cex :
    INT8InnerProductDistance [1] [1] = -1 ∧
    ¬ INT8InnerProductDistance [1] [1] = 1 - INT8InnerProduct [1] [1] := by
  constructor
  · decide
  · decide

/-- C1 counterexample: in the `N = 3`, `max_degree = 1`, pruning-disabled
build `pC1`, `Build` succeeds but node 2 ends with in-degree 0, below the
floor `min_in_degree = 1` (with `max_degree = 1` every `replace_pos` starts
at 0, so `repair_no_in_edge` can never donate an edge). -/
theorem repair_in_degree_floor_cex :
    (Build pC1 freshODescent).map
        (fun r => decide (∀ i ∈ List.range 3, 1 ≤ slotCount r.2.graph i)) =
      some false ∧
    (Build pC1 freshODescent).map (fun r => slotCount r.2.graph 2) = some 0 := by
  constructor
  · decide
  · decide

/-- C6 counterexample: in the `N = 3`, `max_degree = 3` build `pC6` with all
pairwise distances equal, after the reverse-edge pass node 1's adjacency is
`[2, 0, 2]`: `std::unique` removes only adjacent equal ids, so with tied
distances a duplicate neighbor id survives compaction. -/
theorem adjacency_dedup_cex :
    (Build pC6 freshODescent).map (fun r => (GetGraph r.2.graph).getD 1 []) =
      some [2, 0, 2] ∧
    (Build pC6 freshODescent).map
        (fun r => decide ((GetGraph r.2.graph).getD 1 []).Nodup) = some false := by
  constructor
  · with_unfolding_all decide
  · with_unfolding_all decide

/-- C2 counterexample: at the boundary `N - 1 = max_degree` (`N = 3`,
`max_degree = 2`) the code takes the PRNG branch (`data_num_ - 1 <
max_degree_` is strict), so node 0's neighbors are `[2, 1]`, not the cyclic
fill `[1, 2]` the claim's `N - 1 ≤ max_degree` condition would require. -/
theorem init_graph_cyclic_boundary_cex :
    3 - 1 ≤ 2 ∧
    (init_graph distOne streamC2 3 2 10).map
        (fun g => (getL g 0).neighbors.map fun nb => nb.id) = some [2, 1] ∧
    ¬ ([2, 1] : List Nat) = (List.range (min (3 - 1) 2)).map fun j => (0 + j + 1) % 3 := by
  refine ⟨by decide, by decide, by decide⟩

/-- C10: a second `Build()` on an `ODescent` object whose `Build()` has
already returned yields `false` immediately and leaves the object's state
unchanged (`is_build_` is set before any phase runs). -/
theorem build_runs_once (p : ODescentParams) (s : ODescentState) (b : Bool)
    (s2 : ODescentState) (h : Build p s = some (b, s2)) :
    Build p s2 = some (false, s2) := by
  unfold Build at h ⊢
  by_cases hb : s.is_build = true
  · rw [if_pos hb] at h
    simp only [Option.some.injEq, Prod.mk.injEq] at h
    obtain ⟨hb2, hs2⟩ := h
    rw [← hs2, if_pos hb]
  · rw [if_neg hb] at h
    rw [Option.map_eq_some'] at h
    obtain ⟨g, hg, heq⟩ := h
    simp only [Prod.mk.injEq] at heq
    obtain ⟨hb2, hs2⟩ := heq
    rw [← hs2]
    simp

/-- Witness for `build_runs_once`: the `pC1` build succeeds producing `sC1`,
and the second `Build` on `sC1` returns `false` with the state untouched. -/
theorem build_runs_once_witness :
    Build pC1 sC1 = some (false, sC1) :=
  build_runs_once pC1 freshODescent true sC1 (by decide)

theorem nodeLt_eq_pairLt (a b : Node) :
    nodeLt a b = pairLt (nodeKey a) (nodeKey b) := by
  unfold nodeLt pairLt nodeKey
  by_cases h : a.distance = b.distance
  · rw [if_pos h]
    simp only [h]
    cases ha : a.old <;> cases hb : b.old <;> simp
  · rw [if_neg h]
    have h2 : decide (a.distance = b.distance) = false := by
      simp [h]
    rw [h2]
    simp

theorem nodeLt_asymm (a b : Node) (h : nodeLt a b = true) : nodeLt b a = false := by
  rw [nodeLt_eq_pairLt] at h ⊢
  exact pairLt_asymm _ _ h

theorem nodeLt_false_trans (a b c : Node) (hab : nodeLt a b = false)
    (hbc : nodeLt b c = false) : nodeLt a c = false := by
  rw [nodeLt_eq_pairLt] at hab hbc ⊢
  exact pairLt_false_trans _ _ _ hab hbc

theorem pairLt_trans (a b c : PQEntry) (hab : pairLt a b = true)
    (hbc : pairLt b c = true) : pairLt a c = true := by
  rw [pairLt_true_iff] at hab hbc ⊢
  rcases hab with h1 | ⟨h1, h2⟩ <;> rcases hbc with h3 | ⟨h3, h4⟩
  · exact Or.inl (h1.trans h3)
  · exact Or.inl (h3 ▸ h1)
  · refine Or.inl ?_
    rw [h1]
    exact h3
  · exact Or.inr ⟨h1.trans h3, h2.trans h4⟩

theorem nodeLt_true_false_trans (a b c : Node) (hab : nodeLt a b = true)
    (hcb : nodeLt c b = false) : nodeLt c a = false := by
  by_cases h : nodeLt c a = true
  · exfalso
    have h2 : nodeLt c b = true := by
      rw [nodeLt_eq_pairLt] at h hab ⊢
      exact pairLt_trans _ _ _ h hab
    rw [hcb] at h2
    exact Bool.false_ne_true h2
  · exact Bool.eq_false_iff.mpr h

theorem nodeLt_false_dist_le (a b : Node) (h : nodeLt b a = false) :
    a.distance ≤ b.distance := by
  rw [nodeLt_eq_pairLt, pairLt_false_iff] at h
  unfold nodeKey at h
  rcases h with h | ⟨h, _⟩
  · exact le_of_lt h
  · exact le_of_eq h

theorem mem_insertNode (x : Node) (l : List Node) (w : Node) :
    w ∈ insertNode x l ↔ w = x ∨ w ∈ l := by
  induction l with
  | nil => simp [insertNode]
  | cons y ys ih =>
    unfold insertNode
    by_cases h : nodeLt x y = true
    · rw [if_pos h]
      simp only [List.mem_cons]
    · rw [if_neg h]
      simp only [List.mem_cons, ih]
      tauto

theorem pairwise_insertNode (x : Node) (l : List Node)
    (h : l.Pairwise fun a b => nodeLt b a = false) :
    (insertNode x l).Pairwise fun a b => nodeLt b a = false := by
  induction l with
  | nil => simp [insertNode]
  | cons y ys ih =>
    rw [List.pairwise_cons] at h
    obtain ⟨hy, hys⟩ := h
    unfold insertNode
    by_cases hc : nodeLt x y = true
    · rw [if_pos hc]
      refine List.Pairwise.cons ?_ (List.Pairwise.cons hy hys)
      intro w hw
      rcases List.mem_cons.mp hw with rfl | hw
      · exact nodeLt_asymm x w hc
      · exact nodeLt_true_false_trans x y w hc (hy w hw)
    · rw [if_neg hc]
      refine List.Pairwise.cons ?_ (ih hys)
      intro w hw
      rcases (mem_insertNode x ys w).mp hw with rfl | hw
      · exact Bool.eq_false_iff.mpr hc
      · exact hy w hw

theorem pairwise_sortNodes (l : List Node) :
    (sortNodes l).Pairwise fun a b => nodeLt b a = false := by
  induction l with
  | nil => simp [sortNodes]
  | cons x xs ih => exact pairwise_insertNode x (sortNodes xs) ih

theorem uniqueNodesGo_sublist (l : List Node) (a : Node) :
    (uniqueNodesGo a l).Sublist (a :: l) := by
  induction l generalizing a with
  | nil => simp [uniqueNodesGo]
  | cons b rest ih =>
    unfold uniqueNodesGo
    by_cases h : a.id = b.id
    · rw [if_pos h]
      exact (ih a).trans ((List.sublist_cons_self b rest).cons_cons a)
    · rw [if_neg h]
      exact (ih b).cons_cons a

theorem uniqueNodes_sublist (l : List Node) : (uniqueNodes l).Sublist l := by
  cases l with
  | nil => simp [uniqueNodes]
  | cons a rest => exact uniqueNodesGo_sublist rest a

theorem uniqueNodesGo_head (l : List Node) (a : Node) :
    ∃ t, uniqueNodesGo a l = a :: t := by
  induction l generalizing a with
  | nil => exact ⟨[], rfl⟩
  | cons b rest ih =>
    unfold uniqueNodesGo
    by_cases h : a.id = b.id
    · rw [if_pos h]
      exact ih a
    · rw [if_neg h]
      exact ⟨uniqueNodesGo b rest, rfl⟩

theorem chain_uniqueNodesGo (l : List Node) (a : Node) :
    List.Chain' (fun x y => x.id ≠ y.id) (uniqueNodesGo a l) := by
  induction l generalizing a with
  | nil => simp [uniqueNodesGo]
  | cons b rest ih =>
    unfold uniqueNodesGo
    by_cases h : a.id = b.id
    · rw [if_pos h]
      exact ih a
    · rw [if_neg h]
      obtain ⟨t, ht⟩ := uniqueNodesGo_head rest b
      rw [ht]
      refine List.Chain'.cons ?_ (ht ▸ ih b)
      exact h

theorem chain_uniqueNodes (l : List Node) :
    List.Chain' (fun x y => x.id ≠ y.id) (uniqueNodes l) := by
  cases l with
  | nil => simp [uniqueNodes]
  | cons a rest => exact chain_uniqueNodesGo rest a

theorem pairwise_dist_uniqueNodes_sortNodes (l : List Node) :
    (uniqueNodes (sortNodes l)).Pairwise fun a b => a.distance ≤ b.distance :=
  ((pairwise_sortNodes l).sublist (uniqueNodes_sublist (sortNodes l))).imp
    fun h => nodeLt_false_dist_le _ _ h

theorem pruneSel_eq_spec (dist : Nat → Nat → ℚ) (alpha : ℚ) (minDeg : Nat) :
    ∀ (l cand : List Node) (cnt : Nat → Nat),
      pruneSel dist alpha minDeg l cand cnt =
        pruneSelSpec dist alpha minDeg l cand cnt := by
  intro l
  induction l with
  | nil =>
    intro cand cnt
    rfl
  | cons nb rest ih =>
    intro cand cnt
    have hiff : (cnt nb.id ≤ minDeg ∨ ∀ c ∈ cand, nb.distance ≤ alpha * dist nb.id c.id)
        ↔ ¬ (minDeg < cnt nb.id ∧
              (cand.any fun c => decide (dist nb.id c.id * alpha < nb.distance)) = true) := by
      rw [List.any_eq_true]
      simp only [decide_eq_true_eq]
      push_neg
      constructor
      · rintro (h | h) hlt
        · exact absurd hlt (not_lt.mpr h)
        · intro c hcmem
          rw [mul_comm]
          exact h c hcmem
      · intro h
        by_cases hle : cnt nb.id ≤ minDeg
        · exact Or.inl hle
        · refine Or.inr fun c hcmem => ?_
          have h2 := h (not_le.mp hle) c hcmem
          rw [mul_comm] at h2
          exact h2
    unfold pruneSel pruneSelSpec
    by_cases hc : minDeg < cnt nb.id ∧
        (cand.any fun c => decide (dist nb.id c.id * alpha < nb.distance)) = true
    · rw [if_pos hc, if_neg fun hs => (hiff.mp hs) hc]
      exact ih _ _
    · rw [if_neg hc, if_pos (hiff.mpr hc)]
      exact ih _ _

/-- C5: for each node, `prune_graph` walks the node's neighbors in ascending
distance (after the sort + dedupe) and retains a neighbor exactly under the
claim's condition — its current in-degree count at (not above) the floor, or
every already-retained candidate `c` satisfying `alpha * dist(n,c) ≥ dist(n,
origin)` — and the retained list is truncated to `max_degree`. -/
theorem prune_follows_alpha_rng (dist : Nat → Nat → ℚ) (alpha : ℚ)
    (minDeg md : Nat) (ns : List Node) (cnt : Nat → Nat) :
    pruneNode dist alpha minDeg md ns cnt =
      (((pruneSelSpec dist alpha minDeg (uniqueNodes (sortNodes ns)) [] cnt).1).take md,
        (pruneSelSpec dist alpha minDeg (uniqueNodes (sortNodes ns)) [] cnt).2) ∧
    (uniqueNodes (sortNodes ns)).Pairwise fun a b => a.distance ≤ b.distance := by
  refine ⟨?_, pairwise_dist_uniqueNodes_sortNodes ns⟩
  unfold pruneNode
  simp only [pruneSel_eq_spec]

theorem pruneSel_shape (dist : Nat → Nat → ℚ) (alpha : ℚ) (minDeg : Nat) :
    ∀ (l cand : List Node) (cnt : Nat → Nat),
      ∃ s, (pruneSel dist alpha minDeg l cand cnt).1 = cand ++ s ∧ s.Sublist l := by
  intro l
  induction l with
  | nil =>
    intro cand cnt
    exact ⟨[], by simp [pruneSel], List.Sublist.refl []⟩
  | cons nb rest ih =>
    intro cand cnt
    unfold pruneSel
    by_cases hc : minDeg < cnt nb.id ∧
        (cand.any fun c => decide (dist nb.id c.id * alpha < nb.distance)) = true
    · rw [if_pos hc]
      obtain ⟨s, hs1, hs2⟩ := ih cand (decF cnt nb.id)
      exact ⟨s, hs1, hs2.trans (List.sublist_cons_self nb rest)⟩
    · rw [if_neg hc]
      obtain ⟨s, hs1, hs2⟩ := ih (cand ++ [nb]) cnt
      refine ⟨nb :: s, ?_, hs2.cons_cons nb⟩
      rw [hs1, List.append_assoc]
      rfl

/-- C6 (amended): every compaction (the `resize_task` of `update_neighbors`
and the reverse-edge pass) leaves at most `max_degree` entries, sorted
ascending by distance, with no two adjacent entries sharing an id (full
duplicate freedom can fail when equal-distance entries interleave, since
`std::unique` drops only adjacent equal ids); the pruning pass also leaves at
most `max_degree` entries sorted ascending by distance. -/
theorem compaction_bounds_sorted (md : Nat) (ns : List Node)
    (dist : Nat → Nat → ℚ) (alpha : ℚ) (minDeg : Nat) (cnt : Nat → Nat) :
    (compactNodes md ns).length ≤ md ∧
    (compactNodes md ns).Pairwise (fun a b => a.distance ≤ b.distance) ∧
    List.Chain' (fun a b => a.id ≠ b.id) (compactNodes md ns) ∧
    (pruneNode dist alpha minDeg md ns cnt).1.length ≤ md ∧
    (pruneNode dist alpha minDeg md ns cnt).1.Pairwise
      fun a b => a.distance ≤ b.distance := by
  refine ⟨?_, ?_, ?_, ?_, ?_⟩
  · unfold compactNodes
    rw [List.length_take]
    exact min_le_left md _
  · exact (pairwise_dist_uniqueNodes_sortNodes ns).sublist
      (List.take_sublist md (uniqueNodes (sortNodes ns)))
  · exact (chain_uniqueNodes (sortNodes ns)).take md
  · unfold pruneNode
    rw [List.length_take]
    exact min_le_left md _
  · unfold pruneNode
    obtain ⟨s, hs1, hs2⟩ :=
      pruneSel_shape dist alpha minDeg (uniqueNodes (sortNodes ns)) [] cnt
    have hsub : (pruneSel dist alpha minDeg (uniqueNodes (sortNodes ns)) [] cnt).1.Sublist
        (uniqueNodes (sortNodes ns)) := by
      rw [hs1]
      exact hs2
    exact (pairwise_dist_uniqueNodes_sortNodes ns).sublist
      ((List.take_sublist md _).trans hsub)

theorem mem_insertIdSet (v x : Nat) (s : List Nat) :
    x ∈ insertIdSet v s ↔ x ∈ s ∨ x = v := by
  unfold insertIdSet
  by_cases h : v ∈ s
  · rw [if_pos h]
    constructor
    · exact fun hx => Or.inl hx
    · rintro (hx | rfl)
      · exact hx
      · exact h
  · rw [if_neg h]
    simp

theorem drawFresh_not_mem (stream : Nat → Nat) (n : Nat) (ids : List Nat) :
    ∀ (fuel cursor : Nat) (v c2 : Nat),
      drawFresh stream n ids cursor fuel = some (v, c2) → v ∉ ids := by
  intro fuel
  induction fuel with
  | zero =>
    intro cursor v c2 h
    exact absurd h (by simp [drawFresh])
  | succ fuel ih =>
    intro cursor v c2 h
    unfold drawFresh at h
    by_cases hm : stream cursor % n ∈ ids
    · rw [if_pos hm] at h
      exact ih (cursor + 1) v c2 h
    · rw [if_neg hm] at h
      simp only [Option.some.injEq, Prod.mk.injEq] at h
      rw [← h.1]
      exact hm

theorem initNodeGo_cyclic (dist : Nat → Nat → ℚ) (stream : Nat → Nat)
    (n md i fuel : Nat) (hcy : n - 1 < md) :
    ∀ (rem j : Nat) (acc : List Node) (ids : List Nat) (gnd : Option ℚ) (cursor : Nat),
      ∃ g2 c2, initNodeGo dist stream n md i fuel rem j acc ids gnd cursor =
        some (acc ++ (List.range' j rem).map
            (fun jj => ⟨false, (i + jj + 1) % n, dist i ((i + jj + 1) % n)⟩),
          g2, c2) := by
  intro rem
  induction rem with
  | zero =>
    intro j acc ids gnd cursor
    exact ⟨gnd, cursor, by simp [initNodeGo]⟩
  | succ rem ih =>
    intro j acc ids gnd cursor
    unfold initNodeGo
    rw [if_pos hcy]
    obtain ⟨g2, c2, hrec⟩ := ih (j + 1)
      (acc ++ [⟨false, (i + j + 1) % n, dist i ((i + j + 1) % n)⟩])
      (insertIdSet ((i + j + 1) % n) ids)
      (maxGreast gnd (dist i ((i + j + 1) % n))) cursor
    refine ⟨g2, c2, ?_⟩
    rw [hrec, List.range'_succ, List.map_cons, List.append_assoc]
    rfl

theorem initNodeGo_rng (dist : Nat → Nat → ℚ) (stream : Nat → Nat)
    (n md i fuel : Nat) (hncy : ¬ (n - 1 < md)) :
    ∀ (rem j : Nat) (acc : List Node) (ids : List Nat) (gnd : Option ℚ)
      (cursor : Nat) (r : List Node × Option ℚ × Nat),
      initNodeGo dist stream n md i fuel rem j acc ids gnd cursor = some r →
      (∀ x, x ∈ ids ↔ (x = i ∨ x ∈ acc.map fun nb => nb.id)) →
      (acc.map fun nb => nb.id).Nodup →
      i ∉ (acc.map fun nb => nb.id) →
      (r.1.map fun nb => nb.id).Nodup ∧
      i ∉ (r.1.map fun nb => nb.id) ∧
      r.1.length = acc.length + rem := by
  intro rem
  induction rem with
  | zero =>
    intro j acc ids gnd cursor r h hset hnd hni
    unfold initNodeGo at h
    simp only [Option.some.injEq] at h
    rw [← h]
    exact ⟨hnd, hni, by simp⟩
  | succ rem ih =>
    intro j acc ids gnd cursor r h hset hnd hni
    unfold initNodeGo at h
    rw [if_neg hncy] at h
    cases hdraw : drawFresh stream n ids cursor fuel with
    | none =>
      rw [hdraw] at h
      exact absurd h (by simp)
    | some vc =>
      rw [hdraw] at h
      obtain ⟨v, c2⟩ := vc
      have hv : v ∉ ids := drawFresh_not_mem stream n ids fuel cursor v c2 hdraw
      have hvacc : v ∉ (acc.map fun nb => nb.id) := fun hm => hv ((hset v).mpr (Or.inr hm))
      have hvi : v ≠ i := fun he => hv ((hset v).mpr (Or.inl he))
      have hres := ih (j + 1) (acc ++ [⟨false, v, dist i v⟩]) (insertIdSet v ids)
        (maxGreast gnd (dist i v)) c2 r h ?_ ?_ ?_
      · obtain ⟨h1, h2, h3⟩ := hres
        refine ⟨h1, h2, ?_⟩
        rw [h3, List.length_append]
        simp
        omega
      · intro x
        rw [mem_insertIdSet, hset x]
        simp only [List.map_append, List.mem_append, List.map_cons, List.map_nil,
          List.mem_singleton]
        tauto
      · simp only [List.map_append, List.map_cons, List.map_nil]
        rw [List.nodup_append]
        refine ⟨hnd, List.nodup_singleton v, ?_⟩
        intro x hx hx2
        rw [List.mem_singleton] at hx2
        rw [hx2] at hx
        exact hvacc hx
      · simp only [List.map_append, List.mem_append, List.map_cons, List.map_nil,
          List.mem_singleton]
        rintro (hm | he)
        · exact hni hm
        · exact hvi he.symm

theorem init_fold_none (dist : Nat → Nat → ℚ) (stream : Nat → Nat)
    (n md fuel maxNb : Nat) (is : List Nat) :
    is.foldl
      (fun st i =>
        st.bind fun gc =>
          (initNodeGo dist stream n md i fuel maxNb 0 [] [i] none gc.2).map
            fun r => (gc.1 ++ [(⟨r.1, r.2.1⟩ : Linklist)], r.2.2))
      (none : Option (Graph × Nat)) = none := by
  induction is with
  | nil => rfl
  | cons i rest ih => exact ih

theorem init_fold_spec (dist : Nat → Nat → ℚ) (stream : Nat → Nat)
    (n md fuel maxNb : Nat) :
    ∀ (is : List Nat) (g0 : Graph) (c0 : Nat) (res : Graph × Nat),
      is.foldl
        (fun st i =>
          st.bind fun gc =>
            (initNodeGo dist stream n md i fuel maxNb 0 [] [i] none gc.2).map
              fun r => (gc.1 ++ [⟨r.1, r.2.1⟩], r.2.2))
        (some (g0, c0)) = some res →
      ∃ ext : List Linklist, res.1 = g0 ++ ext ∧ ext.length = is.length ∧
        ∀ k, k < is.length →
          ∃ (r : List Node × Option ℚ × Nat) (cur : Nat),
            initNodeGo dist stream n md (is.getD k 0) fuel maxNb 0 [] [is.getD k 0]
                none cur = some r ∧
            ext.getD k emptyLinklist = ⟨r.1, r.2.1⟩ := by
  intro is
  induction is with
  | nil =>
    intro g0 c0 res h
    simp only [List.foldl_nil, Option.some.injEq] at h
    exact ⟨[], by rw [← h]; simp, by simp⟩
  | cons i rest ih =>
    intro g0 c0 res h
    rw [List.foldl_cons] at h
    cases hS : initNodeGo dist stream n md i fuel maxNb 0 [] [i] none c0 with
    | none =>
      rw [show (some (g0, c0)).bind (fun gc =>
            (initNodeGo dist stream n md i fuel maxNb 0 [] [i] none gc.2).map
              fun r => (gc.1 ++ [⟨r.1, r.2.1⟩], r.2.2)) = none by
          simp [hS]] at h
      rw [init_fold_none] at h
      exact absurd h (by simp)
    | some r =>
      rw [show (some (g0, c0)).bind (fun gc =>
            (initNodeGo dist stream n md i fuel maxNb 0 [] [i] none gc.2).map
              fun r => (gc.1 ++ [⟨r.1, r.2.1⟩], r.2.2)) =
          some (g0 ++ [⟨r.1, r.2.1⟩], r.2.2) by
          simp [hS]] at h
      obtain ⟨ext, he1, he2, he3⟩ := ih (g0 ++ [⟨r.1, r.2.1⟩]) r.2.2 res h
      refine ⟨⟨r.1, r.2.1⟩ :: ext, ?_, by simp [he2], ?_⟩
      · rw [he1, List.append_assoc]
        rfl
      · intro k hk
        cases k with
        | zero => exact ⟨r, c0, hS, rfl⟩
        | succ k2 =>
          simp only [List.length_cons, Nat.succ_lt_succ_iff] at hk
          obtain ⟨r2, cur2, hr1, hr2⟩ := he3 k2 hk
          exact ⟨r2, cur2, hr1, hr2⟩

theorem cyclic_mod_inj (n i : Nat) (hn : 1 ≤ n) (j k : Nat) (hj : j < n - 1)
    (hk : k < n - 1) (h : (i + j + 1) % n = (i + k + 1) % n) : j = k := by
  have h2 : (i + 1 + j) % n = (i + 1 + k) % n := by
    rw [show i + 1 + j = i + j + 1 by omega, show i + 1 + k = i + k + 1 by omega]
    exact h
  have h3 : j % n = k % n := Nat.ModEq.add_left_cancel' (i + 1) h2
  rw [Nat.mod_eq_of_lt (by omega), Nat.mod_eq_of_lt (by omega)] at h3
  exact h3

theorem cyclic_mod_ne_self (n i : Nat) (hi : i < n) (j : Nat) (hj : j < n - 1) :
    (i + j + 1) % n ≠ i := by
  intro h
  have h2 : (i + (j + 1)) % n = (i + 0) % n := by
    rw [show i + (j + 1) = i + j + 1 by omega, h, Nat.add_zero, Nat.mod_eq_of_lt hi]
  have h3 : (j + 1) % n = 0 % n := Nat.ModEq.add_left_cancel' i h2
  rw [Nat.mod_eq_of_lt (by omega), Nat.zero_mod] at h3
  omega

/-- C2 (amended): on success `init_graph` gives every node exactly
`min(max_degree, N-1)` neighbors with pairwise distinct ids, none equal to
the node itself; whenever `N - 1 < max_degree` (strictly — at `N - 1 =
max_degree` the PRNG branch is taken) the neighbor at position `j` is the
cyclic fill `(i + j + 1) mod N`; otherwise ids come from the PRNG stream
with duplicates rejected. -/
theorem init_graph_spec (dist : Nat → Nat → ℚ) (stream : Nat → Nat)
    (n md fuel : Nat) (g : Graph) (hn : 1 ≤ n)
    (h : init_graph dist stream n md fuel = some g) :
    g.length = n ∧
    ∀ i, i < n →
      (getL g i).neighbors.length = min (n - 1) md ∧
      ((getL g i).neighbors.map fun nb => nb.id).Nodup ∧
      i ∉ ((getL g i).neighbors.map fun nb => nb.id) ∧
      (n - 1 < md →
        ((getL g i).neighbors.map fun nb => nb.id) =
          (List.range (min (n - 1) md)).map fun j => (i + j + 1) % n) := by
  unfold init_graph at h
  rw [Option.map_eq_some'] at h
  obtain ⟨p, hp, hpg⟩ := h
  obtain ⟨ext, he1, he2, he3⟩ :=
    init_fold_spec dist stream n md fuel (min (n - 1) md) (List.range n) [] 0 p hp
  have hg : g = ext := by
    rw [← hpg, he1]
    rfl
  have hglen : g.length = n := by
    rw [hg, he2, List.length_range]
  refine ⟨hglen, ?_⟩
  intro i hi
  have hidx : (List.range n).getD i 0 = i := by
    rw [List.getD_eq_getElem?_getD, List.getElem?_range hi]
    rfl
  obtain ⟨r, cur, hr1, hr2⟩ := hidx ▸ he3 i (by rwa [List.length_range])
  have hnb : (getL g i).neighbors = r.1 := by
    unfold getL
    rw [hg, hr2]
  by_cases hcy : n - 1 < md
  · obtain ⟨g2, c2, hcyc⟩ := initNodeGo_cyclic dist stream n md i fuel hcy
      (min (n - 1) md) 0 [] [i] none cur
    rw [hr1] at hcyc
    simp only [Option.some.injEq] at hcyc
    have hr1eq : r.1 = (List.range' 0 (min (n - 1) md)).map
        fun jj => ⟨false, (i + jj + 1) % n, dist i ((i + jj + 1) % n)⟩ := by
      rw [hcyc]
      simp only [List.nil_append]
    have hids : ((getL g i).neighbors.map fun nb => nb.id) =
        (List.range (min (n - 1) md)).map fun j => (i + j + 1) % n := by
      rw [hnb, hr1eq, ← List.range_eq_range', List.map_map]
      rfl
    have hminle : min (n - 1) md = n - 1 := by omega
    refine ⟨?_, ?_, ?_, fun _ => hids⟩
    · rw [hnb, hr1eq]
      simp
    · rw [hids]
      refine List.Nodup.map_on ?_ (List.nodup_range _)
      intro j hj k hk hjk
      rw [List.mem_range, hminle] at hj hk
      exact cyclic_mod_inj n i hn j k hj hk hjk
    · rw [hids]
      intro hmem
      rw [List.mem_map] at hmem
      obtain ⟨j, hj, hje⟩ := hmem
      rw [List.mem_range, hminle] at hj
      exact cyclic_mod_ne_self n i hi j hj hje
  · have hres := initNodeGo_rng dist stream n md i fuel hcy (min (n - 1) md) 0 [] [i]
      none cur r hr1 (by simp) (by simp) (by simp)
    obtain ⟨h1, h2, h3⟩ := hres
    rw [hnb]
    exact ⟨by rw [h3]; simp, h1, h2, fun hc => absurd hc hcy⟩

/-- Witness for `init_graph_spec` at the concrete cyclic instance `N = 3`,
`max_degree = 5`: the graph is `gCyc` and node 0's neighbors are the cyclic
fill `[1, 2]`. -/
theorem init_graph_spec_witness :
    gCyc.length = 3 ∧
    (getL gCyc 0).neighbors.length = min (3 - 1) 5 ∧
    ((getL gCyc 0).neighbors.map fun nb => nb.id).Nodup ∧
    0 ∉ ((getL gCyc 0).neighbors.map fun nb => nb.id) ∧
    ((getL gCyc 0).neighbors.map fun nb => nb.id) =
      (List.range (min (3 - 1) 5)).map fun j => (0 + j + 1) % 3 := by
  have h := init_graph_spec distOne (fun _ => 0) 3 5 1 gCyc (by decide)
    (by with_unfolding_all decide)
  obtain ⟨h1, h2⟩ := h
  obtain ⟨a, b, c, d⟩ := h2 0 (by decide)
  exact ⟨h1, a, b, c, d (by decide)⟩

theorem countP_set_aux (p : Node → Bool) :
    ∀ (l : List Node) (pos : Nat) (x y : Node), l.get? pos = some y →
      (l.set pos x).countP p + (if p y then 1 else 0) =
        l.countP p + (if p x then 1 else 0) := by
  intro l
  induction l with
  | nil =>
    intro pos x y h
    exact absurd h (by simp)
  | cons a rest ih =>
    intro pos x y h
    cases pos with
    | zero =>
      simp only [List.get?_cons_zero, Option.some.injEq] at h
      rw [← h]
      simp only [List.set_cons_zero, List.countP_cons]
      omega
    | succ pos =>
      simp only [List.get?_cons_succ] at h
      simp only [List.set_cons_succ, List.countP_cons]
      have h2 := ih pos x y h
      omega

theorem sum_map_set (f : Linklist → Nat) :
    ∀ (g : List Linklist) (a : Nat) (x ll : Linklist), g.get? a = some ll →
      ((g.set a x).map f).sum + f ll = (g.map f).sum + f x := by
  intro g
  induction g with
  | nil =>
    intro a x ll h
    exact absurd h (by simp)
  | cons b rest ih =>
    intro a x ll h
    cases a with
    | zero =>
      simp only [List.get?_cons_zero, Option.some.injEq] at h
      rw [← h]
      simp only [List.set_cons_zero, List.map_cons, List.sum_cons]
      omega
    | succ a =>
      simp only [List.get?_cons_succ] at h
      simp only [List.set_cons_succ, List.map_cons, List.sum_cons]
      have h2 := ih a x ll h
      omega

theorem getL_get? (g : Graph) (a : Nat) (h : (getL g a).neighbors ≠ []) :
    g.get? a = some (getL g a) := by
  by_cases ha : a < g.length
  · rw [List.get?_eq_getElem?, List.getElem?_eq_getElem ha]
    unfold getL
    rw [List.getD_eq_getElem?_getD, List.getElem?_eq_getElem ha]
    rfl
  · exfalso
    unfold getL at h
    rw [List.getD_eq_getElem?_getD, List.getElem?_eq_none (by omega)] at h
    exact h rfl

theorem slotCount_setSlot (g : Graph) (a pos : Nat) (newNode rn : Node)
    (gnd : Option ℚ) (j : Nat)
    (hpos : (getL g a).neighbors.get? pos = some rn) :
    slotCount (setL g a ⟨(getL g a).neighbors.set pos newNode, gnd⟩) j +
      (if rn.id = j then 1 else 0) =
    slotCount g j + (if newNode.id = j then 1 else 0) := by
  have hne : (getL g a).neighbors ≠ [] := by
    intro he
    rw [he] at hpos
    exact absurd hpos (by simp)
  have hget := getL_get? g a hne
  unfold slotCount setL
  have hsum := sum_map_set (fun l => l.neighbors.countP fun nb => decide (nb.id = j))
    g a ⟨(getL g a).neighbors.set pos newNode, gnd⟩ (getL g a) hget
  have hcount := countP_set_aux (fun nb => decide (nb.id = j))
    (getL g a).neighbors pos newNode rn hpos
  simp only [decide_eq_true_eq] at hcount
  dsimp only at hsum
  omega

theorem repairLoop_inv (c0 : Nat → Nat) (minDeg md i : Nat) :
    ∀ (fuel loc : Nat) (st : Graph × (Nat → Nat) × (Nat → Nat)),
      RepairInv c0 minDeg st → RepairInv c0 minDeg (repairLoop minDeg md i loc fuel st) := by
  intro fuel
  induction fuel with
  | zero =>
    intro loc st h
    exact h
  | succ fuel ih =>
    intro loc st h
    obtain ⟨g, cnt, rpos⟩ := st
    unfold repairLoop
    by_cases hc : cnt i < minDeg ∧ loc < md
    · rw [if_pos hc]
      cases hlink : (getL g i).neighbors.get? loc with
      | none => exact ih (loc + 1) (g, cnt, rpos) h
      | some link =>
        dsimp only
        by_cases hcon : 0 < rpos link.id ∧
            ((getL g link.id).neighbors.any fun nb => decide (nb.id = i)) = false
        · rw [if_pos hcon]
          cases hrep : (getL g link.id).neighbors.get? (rpos link.id) with
          | none => exact ih (loc + 1) (g, cnt, decF rpos link.id) ⟨h.1, h.2⟩
          | some replaceNode =>
            dsimp only
            by_cases hdeg : minDeg < cnt replaceNode.id
            · rw [if_pos hdeg]
              refine ih (loc + 1) _ ⟨?_, ?_⟩
              · intro j
                have hkey := slotCount_setSlot g link.id (rpos link.id)
                  ⟨replaceNode.old, i, link.distance⟩ replaceNode
                  (getL g link.id).greast_neighbor_distance j hrep
                dsimp only at hkey
                have hcnt : cnt j = slotCount g j := h.1 j
                have hcntR : cnt replaceNode.id = slotCount g replaceNode.id :=
                  h.1 replaceNode.id
                dsimp only [bumpF, decF]
                by_cases h1 : j = i
                · subst h1
                  by_cases h2 : j = replaceNode.id
                  · rw [← h2] at hkey hcntR hdeg ⊢
                    split_ifs at * <;> omega
                  · split_ifs at * <;> omega
                · by_cases h2 : j = replaceNode.id
                  · rw [← h2] at hkey hcntR hdeg ⊢
                    split_ifs at * <;> omega
                  · split_ifs at * <;> omega
              · intro j
                have hlow : min (c0 j) minDeg ≤ cnt j := h.2 j
                dsimp only [bumpF, decF]
                by_cases h1 : j = i
                · subst h1
                  by_cases h2 : j = replaceNode.id
                  · rw [← h2] at hdeg ⊢
                    split_ifs <;> omega
                  · split_ifs <;> omega
                · by_cases h2 : j = replaceNode.id
                  · rw [← h2] at hdeg ⊢
                    split_ifs <;> omega
                  · split_ifs <;> omega
            · rw [if_neg hdeg]
              exact ih (loc + 1) (g, cnt, decF rpos link.id) ⟨h.1, h.2⟩
        · rw [if_neg hcon]
          exact ih (loc + 1) (g, cnt, rpos) h
    · rw [if_neg hc]
      exact h

theorem repair_fold_inv (c0 : Nat → Nat) (minDeg md : Nat) :
    ∀ (is : List Nat) (st : Graph × (Nat → Nat) × (Nat → Nat)),
      RepairInv c0 minDeg st →
      RepairInv c0 minDeg
        (is.foldl (fun st i => repairLoop minDeg md i 0 md st) st) := by
  intro is
  induction is with
  | nil =>
    intro st h
    exact h
  | cons i rest ih =>
    intro st h
    exact ih _ (repairLoop_inv c0 minDeg md i md 0 st h)

/-- C1 (amended): `repair_no_in_edge` never pushes any node's in-degree below
`min(previous in-degree, min_in_degree)` — a donor slot is rescinded only
when its target's in-degree count is above the floor, and every successful
replacement adds one in-edge to the deficient node.  The floor itself is not
guaranteed (see the counterexample: donors can be exhausted, e.g. whenever
`max_degree = 1`, and with pruning enabled the reverse-edge truncation can
drop a node's last in-edge). -/
theorem repair_no_in_edge_floor_monotone (minDeg md n : Nat) (g : Graph) (j : Nat) :
    min (slotCount g j) minDeg ≤ slotCount (repair_no_in_edge minDeg md n g) j := by
  unfold repair_no_in_edge
  have hinv : RepairInv (fun j => slotCount g j) minDeg
      (g, fun j => slotCount g j, fun _ => min (n - 1) md - 1) := by
    constructor
    · intro j
      rfl
    · intro j
      exact min_le_left _ _
  have h := repair_fold_inv (fun j => slotCount g j) minDeg md (List.range n)
    (g, fun j => slotCount g j, fun _ => min (n - 1) md - 1) hinv
  obtain ⟨h1, h2⟩ := h
  calc min (slotCount g j) minDeg
      ≤ _ := h2 j
    _ = _ := h1 j

end Vsag
